import Mathlib

/-!
# Verification of the godataloader repository

This file gives a shallow embedding, in Lean 4, of the two components of the
`bigdrum/godataloader` Go repository:

* the cooperative two-priority `Scheduler` together with its `Notification`
  one-shot latch and its `WaitGroup` counting join (`scheduler.go`), and
* the batching/deduplicating `DataLoader` (`dataloader.go`, the revision that
  takes an optional `Scheduler`).

Go maps over `interface{}` keys are embedded as association lists over a small
concrete key type (`KeyV`), which suffices for all properties considered
(the dataloader only ever compares keys for equality).  Map iteration order,
which Go leaves unspecified, is determinized as list order; no property below
depends on that order.  Machine concurrency dissolves because the scheduler is
single-active-task by construction; the scheduler is embedded as a small-step
interpreter over task programs (`Prog`), reproducing the dispatch loop, the
suspension/resumption protocol of `Notification.Wait`, and the `pickNext`
convention of release tasks.
-/

set_option maxRecDepth 4000

namespace GoDataloader

/-! ## Keys and values

`Value` in Go wraps a payload and an error (`dataloader.go`).  We embed the
payload and the error each as an `Option Int`; the dataloader treats both as
opaque.  The Go zero `Value{}` (what a read of a missing map key yields) is
`zeroValue`.

A Go key is an `interface{}` value which may or may not implement `MapKeyer`.
`KeyV.plain n` embeds a key that does not implement it, and
`KeyV.withMapKey c m` embeds a key with extra context `c` whose `MapKey()`
method returns the plain key `m`. -/

structure GoValue where
  V : Option Int
  Err : Option Int
deriving DecidableEq

def zeroValue : GoValue := ⟨none, none⟩

inductive KeyV where
  | plain (n : Int)
  | withMapKey (ctx : Int) (mk : Int)
deriving DecidableEq

/-- Source: `getMapKey` — if the key implements `MapKeyer`, use `key.MapKey()`,
else the key itself. -/
def getMapKey : KeyV → KeyV
  | .plain n => .plain n
  | .withMapKey _ m => .plain m

/-! ## Go maps as association lists

`cacheSet` is Go map assignment (overwrite), `cacheGet` is map read returning
an `Option`, `cacheDel` is `delete`.  The new binding is put in front and the
old one removed; since the Go map is only observed through membership/read
(the cache) or through a full iteration with unspecified order (the pending
set), this determinization is faithful. -/

abbrev Cache := List (KeyV × GoValue)

def cacheGet : Cache → KeyV → Option GoValue
  | [], _ => none
  | e :: rest, k => if e.1 = k then some e.2 else cacheGet rest k

def cacheDel : Cache → KeyV → Cache
  | [], _ => []
  | e :: rest, k => if e.1 = k then cacheDel rest k else e :: cacheDel rest k

def cacheSet (c : Cache) (k : KeyV) (v : GoValue) : Cache :=
  (k, v) :: cacheDel c k

/-- The pending set: map key ↦ original key (`dl.pending`). -/
abbrev Pending := List (KeyV × KeyV)

def pendingGet : Pending → KeyV → Option KeyV
  | [], _ => none
  | e :: rest, k => if e.1 = k then some e.2 else pendingGet rest k

def pendingDel : Pending → KeyV → Pending
  | [], _ => []
  | e :: rest, k => if e.1 = k then pendingDel rest k else e :: pendingDel rest k

def pendingSet (p : Pending) (mk k : KeyV) : Pending :=
  (mk, k) :: pendingDel p mk


/-! ## The DataLoader

State of a `DataLoader` as far as the pure logic is concerned: the cache and
the pending set.  (`fetchDone` and the scheduler hook are modelled separately
for the scheduler-attached mode, see `scheduleFetchS`; in synchronous mode —
`sch == nil` — `fetchDone` is always `nil` because `fetchPending` resets it
before releasing the lock.) -/

structure DLState where
  cache : Cache
  pending : Pending
deriving DecidableEq

/-- Source: `DataLoader.Prime` — store only if the key is absent
(overwrite-protected).  Note it addresses the cache by `key` itself,
not by `getMapKey key`. -/
def prime (c : Cache) (k : KeyV) (v : GoValue) : Cache :=
  match cacheGet c k with
  | some _ => c
  | none => cacheSet c k v

/-- Source: `DataLoader.Clear` — deletes by `key` itself, not by
`getMapKey key`. -/
def clearKey (c : Cache) (k : KeyV) : Cache := cacheDel c k

/-- Source: `DataLoader.ClearAll`. -/
def clearAll (_ : Cache) : Cache := []

/-- The batch callback type: `func(keys []interface{}) []Value`. -/
abbrev BatchLoader := List KeyV → List GoValue

/-- Source: `DataLoader.fetchPending`.  Iterates the pending set, skipping
map keys already cached; if the remaining key list is non-empty it invokes the
batch callback once and stores `values[i]` under `mkeys[i]`; finally the
pending set is cleared (and `fetchDone` reset, handled by the caller's
modelling).  Returns the new cache, the new (empty) pending set, and the list
of callback invocations performed (each entry the key list of one call). -/
def fetchPending (cb : BatchLoader) (cache : Cache) (pending : Pending) :
    Cache × Pending × List (List KeyV) :=
  let pairs := pending.filter (fun e => (cacheGet cache e.1).isNone)
  let mkeys := pairs.map (·.1)
  let keys := pairs.map (·.2)
  if keys.isEmpty then (cache, [], [])
  else
    ((mkeys.zip (cb keys)).foldl (fun c e => cacheSet c e.1 e.2) cache, [],
      [keys])

/-- Phase 1 of `DataLoader.LoadMany` (read-locked): the `values` slice after
the first pass — cache hits filled in, misses left at the zero `Value`. -/
def phase1Values (cache : Cache) (keys : List KeyV) : List GoValue :=
  keys.map (fun k => (cacheGet cache (getMapKey k)).getD zeroValue)

/-- Phase 1 of `DataLoader.LoadMany`: the misses collected into
`keysToFetch` / `mkeysToFetch` / `keysToFetchIndex`, here as a single list of
`(key, mkey, index)` triples in traversal order; `i` is the index of the
first listed key. -/
def phase1MissesGo (cache : Cache) : List KeyV → Nat → List (KeyV × KeyV × Nat)
  | [], _ => []
  | k :: rest, i =>
    if (cacheGet cache (getMapKey k)).isNone then
      (k, getMapKey k, i) :: phase1MissesGo cache rest (i + 1)
    else phase1MissesGo cache rest (i + 1)

def phase1Misses (cache : Cache) (keys : List KeyV) :
    List (KeyV × KeyV × Nat) :=
  phase1MissesGo cache keys 0

/-- Go's `l[i] = l[len(l)-1]; l = l[:len(l)-1]` (swap-remove). -/
def swapRemove {α : Type} (l : List α) (i : Nat) : List α :=
  match l.getLast? with
  | some x => (l.set i x).dropLast
  | none => []

/-- Phase 2 of `DataLoader.LoadMany` (write-locked), the loop
`for i := 0; i < len(keysToFetch); i++ { ... }`.  A key that became cached
between the phases is swap-removed from `keysToFetch` and `keysToFetchIndex`
(note: the source does not shrink `mkeysToFetch`) and its value recorded at
`values[keysToFetchIndex[i]]`; a still-missing key is written into the
pending set under its map key.  Mirrors the source exactly, including the
`i++` that runs after the `continue` of the removal branch. -/
def phase2go (cache : Cache) (kt : List KeyV) (mkt : List KeyV)
    (kti : List Nat) (vals : List GoValue) (pending : Pending) (i : Nat) :
    List KeyV × List Nat × List GoValue × Pending :=
  if h : i < kt.length then
    let key := kt.getD i (.plain 0)
    let mkey := mkt.getD i (.plain 0)
    match cacheGet cache mkey with
    | some v =>
        phase2go cache (swapRemove kt i) mkt (swapRemove kti i)
          (vals.set (kti.getD i 0) v) pending (i + 1)
    | none =>
        phase2go cache kt mkt kti vals (pendingSet pending mkey key) (i + 1)
  else (kt, kti, vals, pending)
termination_by kt.length - i
decreasing_by
  · have hlast : kt.getLast? ≠ none := by
      cases kt with
      | nil => exact absurd h (by simp)
      | cons a l => simp [List.getLast?]
    have hlen : (swapRemove kt i).length = kt.length - 1 := by
      unfold swapRemove
      cases hl : kt.getLast? with
      | none => exact absurd hl hlast
      | some x => simp
    omega
  · omega

/-- The loop `for vsi, vi := range keysToFetchIndex` at the end of
`LoadMany`: `values[vi] = dl.cache[mkeysToFetch[vsi]]` — a read of a missing
map key yields the zero `Value`, as in Go. -/
def finalReadGo (cache : Cache) (mkt : List KeyV) :
    List Nat → Nat → List GoValue → List GoValue
  | [], _, vals => vals
  | vi :: rest, vsi, vals =>
      finalReadGo cache mkt rest (vsi + 1)
        (vals.set vi ((cacheGet cache (mkt.getD vsi (.plain 0))).getD zeroValue))

structure LMResult where
  values : List GoValue
  st : DLState
  invocations : List (List KeyV)
deriving DecidableEq

/-- `DataLoader.LoadMany` in synchronous mode (`sch == nil`), with the cache
possibly changing between the read-locked phase 1 and the write-locked
phase 2: `st.cache` is the cache seen by phase 1 and `cacheP2` the cache seen
once the write lock is acquired (in a sequential run the two coincide, see
`loadManySync`; a concurrent fetch completing in between makes them differ).
In synchronous mode `scheduleFetch` runs `fetchPending` inline and returns
`nil`, so no wait occurs. -/
def loadManyMid (cb : BatchLoader) (cacheP2 : Cache) (st : DLState)
    (keys : List KeyV) : LMResult :=
  let vals := phase1Values st.cache keys
  let misses := phase1Misses st.cache keys
  let kt := misses.map (·.1)
  let mkt := misses.map (·.2.1)
  let kti := misses.map (·.2.2)
  if kt.isEmpty then ⟨vals, st, []⟩
  else
    let p2 := phase2go cacheP2 kt mkt kti vals st.pending 0
    let fp := fetchPending cb cacheP2 p2.2.2.2
    let vals2 :=
      if p2.1.isEmpty then p2.2.2.1
      else finalReadGo fp.1 mkt p2.2.1 0 p2.2.2.1
    ⟨vals2, ⟨fp.1, fp.2.1⟩, fp.2.2⟩

/-- `DataLoader.LoadMany`, synchronous mode, sequential execution (nothing
intervenes between the two lock acquisitions). -/
def loadManySync (cb : BatchLoader) (st : DLState) (keys : List KeyV) :
    LMResult :=
  loadManyMid cb st.cache st keys

/-- `DataLoader.Load key` = `LoadMany([key])[0]`. -/
def loadSync (cb : BatchLoader) (st : DLState) (key : KeyV) :
    GoValue × DLState × List (List KeyV) :=
  let r := loadManySync cb st [key]
  (r.values.getD 0 zeroValue, r.st, r.invocations)

/-- Source: `DataLoader.scheduleFetch` in scheduler mode (`sch != nil`).
State is the `fetchDone` handle (`Option` of a notification id); `fresh` is
the id `NewNotification` would allocate.  Returns the notification handle
handed to the caller, the new `fetchDone`, and whether a new low-priority
fetch task was spawned. -/
def scheduleFetchS (fetchDone : Option Nat) (fresh : Nat) :
    Option Nat × Option Nat × Bool :=
  match fetchDone with
  | some n => (some n, some n, false)
  | none => (some fresh, some fresh, true)

/-- One client operation of C1's call sequences: a `LoadMany` (a `Load` is a
singleton `LoadMany`) or a `Prime`. -/
inductive DLOp where
  | loadMany (keys : List KeyV)
  | primeOp (k : KeyV) (v : GoValue)

/-- Run a sequence of loader operations, accumulating every batch-callback
invocation. -/
def runCalls (cb : BatchLoader) : DLState → List DLOp →
    DLState × List (List KeyV)
  | st, [] => (st, [])
  | st, .loadMany keys :: rest =>
      let r := loadManySync cb st keys
      let t := runCalls cb r.st rest
      (t.1, r.invocations ++ t.2)
  | st, .primeOp k v :: rest =>
      runCalls cb ⟨prime st.cache k v, st.pending⟩ rest

/-! ## The Scheduler (`scheduler.go`, current revision)

Tasks are embedded as programs over the scheduler's primitives.  `mark i`
stands for an observable side effect of user code (`t.Log` in the tests) and
is how the event trace records that a given piece of a task body has run.

The Go implementation keeps one *active* execution at a time:

* `schedule` pops tasks (LIFO, normal queue before low queue) and runs each
  popped `schedulable.action()`; if the popped task has `pickNext == false`
  (only the waiter-release closures enqueued by `Notification.Notify`), the
  loop `return`s after running it.
* `Notification.Wait` (when not yet notified) registers a fresh
  `sync.WaitGroup` join handle, starts a new dispatch loop on a fresh
  goroutine (`go n.sch.schedule()`) and blocks the current goroutine;
  the blocked task resumes when a release closure runs `wg.Done()`.
* `RunWithScheduler` enqueues the root task and runs the dispatch loop on the
  caller's goroutine; it returns when that particular loop returns.

The machine state below records the two queues, the notification states and
the waiters (a waiter is the suspended continuation of a task, together with
the root-ness of the dispatch loop its goroutine was popped from; a consumed
entry is `none`, so that a second `wg.Done()` on the same handle — a fatal
`sync` error in Go — is detectable).  The only concurrency in the Go code is
the brief race between a returning dispatch loop and the waiter it has just
released; the machine serializes it as loop-return first, waiter next, which
is one of the interleavings Go permits. -/

inductive Prog where
  | nil
  | mark (i : Nat) (rest : Prog)
  | spawn (child rest : Prog)
  | spawnLow (child rest : Prog)
  | notify (nid : Nat) (rest : Prog)
  | wait (nid : Nat) (rest : Prog)
deriving DecidableEq

/-- A queued `schedulable`: either an ordinary spawned task (`pickNext =
true`) or a waiter-release closure enqueued by `Notify` (`pickNext =
false`). -/
inductive QTask where
  | run (p : Prog)
  | release (w : Nat)
deriving DecidableEq

structure NotifSt where
  notified : Bool
  q : List Nat
deriving DecidableEq

structure MState where
  normalQ : List QTask
  lowQ : List QTask
  notifs : List NotifSt
  waiters : List (Option (Prog × Bool))
deriving DecidableEq

inductive Ctrl where
  | dispatch (isRoot : Bool)
  | exec (isRoot : Bool) (p : Prog)
deriving DecidableEq

inductive Ev where
  | mark (i : Nat)
  | rootRet
deriving DecidableEq

inductive Outcome where
  | halted
  | fatal
  | outOfFuel
deriving DecidableEq

/-- `spawnAt`: append to the chosen queue (the queues are used as stacks, so
the most recently pushed element sits at the end). -/
def qPush (q : List QTask) (t : QTask) : List QTask := q ++ [t]

/-- The pop step of `Scheduler.schedule`: take the normal queue if non-empty,
else the low queue, else stop; pop the last element (LIFO).  The `Bool`
result records which lane the task came from (`true` = low), a ghost
observation used only in statements. -/
def schedulePick (nq lq : List QTask) :
    Option (QTask × List QTask × List QTask × Bool) :=
  match nq.getLast? with
  | some t => some (t, nq.dropLast, lq, false)
  | none =>
    match lq.getLast? with
    | some t => some (t, [], lq.dropLast, true)
    | none => none

def getNotif (st : MState) (nid : Nat) : NotifSt :=
  st.notifs.getD nid ⟨true, []⟩

def setNotif (st : MState) (nid : Nat) (ns : NotifSt) : MState :=
  { st with notifs := st.notifs.set nid ns }

/-- The small-step interpreter, fuelled.  `Ctrl.exec b p` is "the dispatch
loop of root-ness `b` is inside `s.action()`, with `p` left to run";
`Ctrl.dispatch b` is "that loop is back at its pop step". -/
def machRun : Nat → MState → Ctrl → List Ev × Outcome
  | 0, _, _ => ([], .outOfFuel)
  | fuel + 1, st, .exec b p =>
    match p with
    | .nil => machRun fuel st (.dispatch b)
    | .mark i rest =>
        let r := machRun fuel st (.exec b rest)
        (.mark i :: r.1, r.2)
    | .spawn c rest =>
        machRun fuel { st with normalQ := qPush st.normalQ (.run c) }
          (.exec b rest)
    | .spawnLow c rest =>
        machRun fuel { st with lowQ := qPush st.lowQ (.run c) } (.exec b rest)
    | .notify nid rest =>
        -- `n.notified = true`, then one release closure per registered
        -- waiter is appended to the normal queue; `n.q` is not cleared.
        let ns := getNotif st nid
        let st1 := setNotif st nid ⟨true, ns.q⟩
        let st2 := { st1 with normalQ := st1.normalQ ++ ns.q.map QTask.release }
        machRun fuel st2 (.exec b rest)
    | .wait nid rest =>
        let ns := getNotif st nid
        if ns.notified then machRun fuel st (.exec b rest)
        else
          -- register a fresh join handle, then `go n.sch.schedule()`:
          -- a new, non-root dispatch loop becomes the active execution.
          let w := st.waiters.length
          let st1 := { st with waiters := st.waiters ++ [some (rest, b)] }
          let st2 := setNotif st1 nid ⟨ns.notified, ns.q ++ [w]⟩
          machRun fuel st2 (.dispatch false)
  | fuel + 1, st, .dispatch b =>
    match schedulePick st.normalQ st.lowQ with
    | none => (if b then [.rootRet] else [], .halted)
    | some (t, nq, lq, _) =>
      let st1 := { st with normalQ := nq, lowQ := lq }
      match t with
      | .run p => machRun fuel st1 (.exec b p)
      | .release w =>
        match st1.waiters.getD w none with
        | none => ([], .fatal)  -- double `wg.Done()`: fatal in Go
        | some (cont, bw) =>
          -- `wg.Done()` releases waiter `w`; `pickNext == false` makes this
          -- loop return (if it is the root loop, `RunWithScheduler`
          -- returns); the released task then resumes.
          let st2 := { st1 with waiters := st1.waiters.set w none }
          let r := machRun fuel st2 (.exec bw cont)
          ((if b then [.rootRet] else []) ++ r.1, r.2)

/-- `RunWithScheduler f`: spawn the root task at normal priority, then run
the dispatch loop on the calling goroutine (the root loop). -/
def runRoot (fuel : Nat) (numNotifs : Nat) (root : Prog) : List Ev × Outcome :=
  machRun fuel
    ⟨[.run root], [], List.replicate numNotifs ⟨false, []⟩, []⟩
    (.dispatch true)

/-! ## The WaitGroup counting join (`scheduler.go`) -/

/-- `WaitGroup` state: the counter, plus how many times the owned
Notification has been fired (`w.n.Notify()` calls). -/
structure WG where
  numToWait : Int
  notifyCount : Nat
deriving DecidableEq

inductive WGOp where
  | add (i : Int)
  | done
deriving DecidableEq

/-- Source: `WaitGroup.Add` — unchecked increment. -/
def wgAdd (w : WG) (i : Int) : WG := { w with numToWait := w.numToWait + i }

/-- Source: `WaitGroup.Done` — decrement, `panic` (modelled as `none`) if the
counter went negative, fire the owned Notification on reaching zero. -/
def wgDone (w : WG) : Option WG :=
  let n := w.numToWait - 1
  if n < 0 then none
  else some ⟨n, if n = 0 then w.notifyCount + 1 else w.notifyCount⟩

/-- Source: `WaitGroup.Wait` — `true` iff it returns immediately (count
zero); otherwise it delegates to the owned Notification's `Wait`. -/
def wgWaitImmediate (w : WG) : Bool := w.numToWait = 0

def runWG : WG → List WGOp → Option WG
  | w, [] => some w
  | w, .add i :: rest => runWG (wgAdd w i) rest
  | w, .done :: rest =>
    match wgDone w with
    | none => none
    | some w2 => runWG w2 rest

def wgInit : WG := ⟨0, 0⟩

/-- Folding a list of `(mkey, key)` writes into the pending set; what the
phase-2 loop does to the pending set when none of the keys re-checks as a
hit. -/
def pendingFold (p : Pending) (l : List (KeyV × KeyV)) : Pending :=
  l.foldl (fun p e => pendingSet p e.1 e.2) p

/-! ## Concrete scenarios

Named programs and inputs used by the counterexample and witness theorems
below. -/

/-- A batch callback answering `n ↦ 100 + n` for plain keys (and
`100 + ctx + mk` for `MapKeyer` keys); same-length by construction. -/
def cbDemo : BatchLoader :=
  fun ks => ks.map (fun k => match k with
    | .plain n => ⟨some (100 + n), none⟩
    | .withMapKey c m => ⟨some (100 + c + m), none⟩)

/-- The value `{V: 10}`, used as the concurrently fetched value in the
`LoadMany` phase-2 scenario. -/
def vA : GoValue := ⟨some 10, none⟩

/-- Scenario for `LoadMany`'s phase 2: two plain keys `0` and `1`, both
missing at phase 1 (empty cache), but key `0` cached (value `vA`) by the time
the write lock is acquired — the situation of a fetch completing between the
two phases. -/
def midResult : LMResult :=
  loadManyMid cbDemo [(.plain 0, vA)] ⟨[], []⟩ [.plain 0, .plain 1]

/-- Scheduler scenario with two notifications `0` and `1`:
the root task spawns `N`, `X`, `W` (so the LIFO order runs `W` first);
`W` waits on `0` then notifies `1`; `X` spawns `Y`; `Y` waits on `1` and then
logs `42`; `N` notifies `0`.  The root dispatch loop ends up popping the
release closure for `Y` (whose suspended goroutine belongs to a non-root
loop), so `RunWithScheduler` returns before task `Y` has run. -/
def progY : Prog := .wait 1 (.mark 42 .nil)

def progX : Prog := .spawn progY .nil

def progW : Prog := .wait 0 (.notify 1 .nil)

def progN : Prog := .notify 0 .nil

def progEarlyReturn : Prog := .spawn progN (.spawn progX (.spawn progW .nil))

/-- Double-notify scenario: a waiter `W` on notification `0`, and a task that
calls `Notify` twice in a row.  The second `Notify` re-enqueues a release
closure for the already-released waiter; dispatching it is a double
`wg.Done()`, fatal in Go. -/
def progWaitOnly : Prog := .wait 0 .nil

def progNotifyTwice : Prog := .notify 0 (.notify 0 .nil)

def progNotifyOnce : Prog := .notify 0 .nil

def progDoubleNotify : Prog := .spawn progNotifyTwice (.spawn progWaitOnly .nil)

def progSingleNotify : Prog := .spawn progNotifyOnce (.spawn progWaitOnly .nil)

/-! ## Association-list map lemmas -/

@[simp] theorem cacheGet_nil (k : KeyV) : cacheGet [] k = none := rfl

theorem cacheGet_del (c : Cache) (k k' : KeyV) :
    cacheGet (cacheDel c k) k' = if k' = k then none else cacheGet c k' := by
  induction c with
  | nil => simp [cacheDel, cacheGet]
  | cons e rest ih =>
    by_cases he : e.1 = k
    · by_cases h : k' = k
      · subst h
        simp [cacheDel, he, ih]
      · have hkk' : ¬(k = k') := fun hh => h hh.symm
        simp [cacheDel, cacheGet, he, ih, h, hkk']
    · simp only [cacheDel, if_neg he]
      by_cases he' : e.1 = k'
      · have hk' : ¬(k' = k) := fun hh => he (he' ▸ hh ▸ rfl)
        simp [cacheGet, he', hk']
      · simp [cacheGet, he', ih]

@[simp] theorem cacheGet_set_self (c : Cache) (k : KeyV) (v : GoValue) :
    cacheGet (cacheSet c k v) k = some v := by
  simp [cacheSet, cacheGet]

theorem cacheGet_set_ne (c : Cache) (k k' : KeyV) (v : GoValue) (h : k' ≠ k) :
    cacheGet (cacheSet c k v) k' = cacheGet c k' := by
  have hk : ¬(k = k') := fun hh => h hh.symm
  simp [cacheSet, cacheGet, hk, cacheGet_del, h]

theorem cacheGet_set (c : Cache) (k k' : KeyV) (v : GoValue) :
    cacheGet (cacheSet c k v) k' = if k' = k then some v else cacheGet c k' := by
  by_cases h : k' = k
  · subst h; simp
  · simp [cacheGet_set_ne c k k' v h, h]

theorem pendingGet_del (p : Pending) (k k' : KeyV) :
    pendingGet (pendingDel p k) k' = if k' = k then none else pendingGet p k' := by
  induction p with
  | nil => simp [pendingDel, pendingGet]
  | cons e rest ih =>
    by_cases he : e.1 = k
    · by_cases h : k' = k
      · subst h
        simp [pendingDel, he, ih]
      · have hkk' : ¬(k = k') := fun hh => h hh.symm
        simp [pendingDel, pendingGet, he, ih, h, hkk']
    · simp only [pendingDel, if_neg he]
      by_cases he' : e.1 = k'
      · have hk' : ¬(k' = k) := fun hh => he (he' ▸ hh ▸ rfl)
        simp [pendingGet, he', hk']
      · simp [pendingGet, he', ih]

theorem pendingGet_set (p : Pending) (mk k mk' : KeyV) :
    pendingGet (pendingSet p mk k) mk' =
      if mk' = mk then some k else pendingGet p mk' := by
  by_cases h : mk' = mk
  · subst h; simp [pendingSet, pendingGet]
  · have hk : ¬(mk = mk') := fun hh => h hh.symm
    simp [pendingSet, pendingGet, hk, pendingGet_del, h]

/-! ## Scheduler dispatch rule (C2) -/

theorem schedulePick_normal (nq lq : List QTask) (t : QTask)
    (h : nq.getLast? = some t) :
    schedulePick nq lq = some (t, nq.dropLast, lq, false) := by
  simp [schedulePick, h]

theorem schedulePick_low (lq : List QTask) (t : QTask)
    (h : lq.getLast? = some t) :
    schedulePick [] lq = some (t, [], lq.dropLast, true) := by
  simp [schedulePick, h]

theorem schedulePick_none_iff (nq lq : List QTask) :
    schedulePick nq lq = none ↔ nq = [] ∧ lq = [] := by
  unfold schedulePick
  cases hn : nq.getLast? with
  | some t =>
    have hne : nq ≠ [] := by
      intro h
      rw [h] at hn
      exact Option.noConfusion hn
    simp [hne]
  | none =>
    cases hl : lq.getLast? with
    | some t =>
      have hne : lq ≠ [] := by
        intro h
        rw [h] at hl
        exact Option.noConfusion hl
      simp [hne]
    | none =>
      simp [List.getLast?_eq_none_iff.1 hn, List.getLast?_eq_none_iff.1 hl]

theorem schedulePick_low_only_when_normal_empty (nq lq : List QTask)
    (t : QTask) (nq2 lq2 : List QTask)
    (h : schedulePick nq lq = some (t, nq2, lq2, true)) : nq = [] := by
  unfold schedulePick at h
  cases hn : nq.getLast? with
  | some u => simp [hn] at h
  | none => exact List.getLast?_eq_none_iff.1 hn

/-- Claim C2: the dispatch loop, on every iteration, pops the
most-recently-pushed task of the normal queue if that queue is non-empty,
else the most-recently-pushed task of the low queue if non-empty, and
otherwise stops; consequently a task is never popped from the low queue
while the normal queue is non-empty.  (`qPush` is how `spawnAt` and `Notify`
push, so the most recently pushed task is the `getLast?`.) -/
theorem claim_C2 :
    (∀ (q : List QTask) (t : QTask), (qPush q t).getLast? = some t)
    ∧ (∀ (nq lq : List QTask) (t : QTask), nq.getLast? = some t →
        schedulePick nq lq = some (t, nq.dropLast, lq, false))
    ∧ (∀ (lq : List QTask) (t : QTask), lq.getLast? = some t →
        schedulePick [] lq = some (t, [], lq.dropLast, true))
    ∧ (∀ (nq lq : List QTask), schedulePick nq lq = none ↔ nq = [] ∧ lq = [])
    ∧ (∀ (nq lq : List QTask) (t : QTask) (nq2 lq2 : List QTask),
        schedulePick nq lq = some (t, nq2, lq2, true) → nq = []) := by
  refine ⟨?_, schedulePick_normal, schedulePick_low, schedulePick_none_iff,
    schedulePick_low_only_when_normal_empty⟩
  intro q t
  simp [qPush]

/-- Witness for C2 at concrete queues. -/
theorem claim_C2_witness :
    (qPush [] (QTask.release 0)).getLast? = some (QTask.release 0)
    ∧ schedulePick [QTask.run .nil] [QTask.release 0] =
        some (QTask.run .nil, [], [QTask.release 0], false)
    ∧ schedulePick [] [QTask.release 0] =
        some (QTask.release 0, [], [], true) := by
  refine ⟨claim_C2.1 [] (QTask.release 0), ?_, ?_⟩
  · exact claim_C2.2.1 [QTask.run .nil] [QTask.release 0] (QTask.run .nil) rfl
  · exact claim_C2.2.2.1 [QTask.release 0] (QTask.release 0) rfl

/-! ## The counting join (C5) -/

theorem runWG_nonneg (ops : List WGOp) :
    ∀ w : WG, 0 ≤ w.numToWait →
      (∀ op ∈ ops, ∀ i, op = WGOp.add i → 0 ≤ i) →
      ∀ w2, runWG w ops = some w2 → 0 ≤ w2.numToWait := by
  induction ops with
  | nil =>
    intro w hw _ w2 h
    simp only [runWG] at h
    cases h
    exact hw
  | cons op rest ih =>
    intro w hw hops w2 h
    cases op with
    | add i =>
      have hi : 0 ≤ i := hops (.add i) (by simp) i rfl
      refine ih (wgAdd w i) ?_ (fun o ho j hj => hops o (by simp [ho]) j hj) w2 h
      simp only [wgAdd]
      omega
    | done =>
      simp only [runWG] at h
      cases hd : wgDone w with
      | none => rw [hd] at h; exact Option.noConfusion h
      | some w1 =>
        rw [hd] at h
        refine ih w1 ?_ (fun o ho j hj => hops o (by simp [ho]) j hj) w2 h
        simp only [wgDone] at hd
        by_cases hn : w.numToWait - 1 < 0
        · rw [if_pos hn] at hd; exact Option.noConfusion hd
        · rw [if_neg hn] at hd
          cases hd
          dsimp only
          omega

/-- Counterexample to claim C5 as stated: `add(-1)` is a sequence of
add/done calls whose running count goes negative, yet no fatal error occurs
(the run succeeds and leaves the count at `-1`). -/
theorem claim_C5_counterexample :
    runWG wgInit [WGOp.add (-1)] = some ⟨-1, 0⟩
    ∧ ((-1 : Int) < 0) := by
  constructor
  · rfl
  · decide

/-- Claim C5 (amended): `done` is fatal exactly when the decrement would
take the count negative (count ≤ 0 before the call); a non-fatal `done`
decrements by one and fires the owned Notification exactly when the count
reaches zero (exactly one extra `Notify`); `add` never faults and never
fires, so a negative `add` argument can take the count negative silently —
but under nonnegative `add` arguments a non-fatal run never has a negative
count; `wait` returns immediately iff the count is zero (otherwise it
delegates to the owned Notification's wait). -/
theorem claim_C5 (w : WG) :
    (wgDone w = none ↔ w.numToWait ≤ 0)
    ∧ (w.numToWait = 1 → wgDone w = some ⟨0, w.notifyCount + 1⟩)
    ∧ (∀ w2, wgDone w = some w2 →
        w2.numToWait = w.numToWait - 1
        ∧ (w2.notifyCount = w.notifyCount + 1 ↔ w.numToWait = 1))
    ∧ (∀ i, (wgAdd w i).numToWait = w.numToWait + i
        ∧ (wgAdd w i).notifyCount = w.notifyCount)
    ∧ (wgWaitImmediate w = true ↔ w.numToWait = 0)
    ∧ (∀ ops : List WGOp, 0 ≤ w.numToWait →
        (∀ op ∈ ops, ∀ i, op = WGOp.add i → 0 ≤ i) →
        ∀ w2, runWG w ops = some w2 → 0 ≤ w2.numToWait) := by
  refine ⟨?_, ?_, ?_, ?_, ?_, fun ops h1 h2 w2 h3 => runWG_nonneg ops w h1 h2 w2 h3⟩
  · unfold wgDone
    by_cases hn : w.numToWait - 1 < 0
    · simp only [if_pos hn]
      constructor
      · intro _
        omega
      · intro _
        trivial
    · simp only [if_neg hn]
      constructor
      · intro h
        exact Option.noConfusion h
      · intro h
        exact absurd h (by omega)
  · intro h1
    simp [wgDone, h1]
  · intro w2 h
    unfold wgDone at h
    by_cases hn : w.numToWait - 1 < 0
    · rw [if_pos hn] at h; exact Option.noConfusion h
    · rw [if_neg hn] at h
      cases h
      constructor
      · rfl
      · by_cases h1 : w.numToWait - 1 = 0
        · simp [h1]
          omega
        · simp [h1]
          omega
  · intro i
    exact ⟨rfl, rfl⟩
  · unfold wgWaitImmediate
    simp

/-- Witness for C5 at a concrete join state. -/
theorem claim_C5_witness :
    wgDone ⟨1, 0⟩ = some ⟨0, 1⟩
    ∧ wgDone ⟨0, 1⟩ = none
    ∧ (0 : Int) ≤ (⟨0, 1⟩ : WG).numToWait := by
  refine ⟨(claim_C5 ⟨1, 0⟩).2.1 rfl, ?_, ?_⟩
  · exact (claim_C5 ⟨0, 1⟩).1.2 (by decide)
  · exact (claim_C5 ⟨1, 0⟩).2.2.2.2.2 [WGOp.done] (by decide)
      (by intro op hop i hi; simp at hop; simp [hop] at hi) ⟨0, 1⟩ rfl

/-! ## Prime and Clear (C6) -/

/-- Claim C6: `prime` is overwrite-protected and `clear` restores
primability: from a state where `k` is uncached, `prime k v1; prime k v2`
leaves the cached value at `v1`; and `prime k v1; clear k; prime k v2`
leaves it at `v2` (from any state). -/
theorem claim_C6 (c : Cache) (k : KeyV) (v1 v2 : GoValue) :
    (cacheGet c k = none →
      cacheGet (prime (prime c k v1) k v2) k = some v1)
    ∧ cacheGet (prime (clearKey (prime c k v1) k) k v2) k = some v2 := by
  constructor
  · intro h
    have h1 : prime c k v1 = cacheSet c k v1 := by simp [prime, h]
    rw [h1]
    have h2 : cacheGet (cacheSet c k v1) k = some v1 := cacheGet_set_self c k v1
    simp [prime, h2]
  · set c2 := clearKey (prime c k v1) k with hc2
    have h3 : cacheGet c2 k = none := by
      simp [hc2, clearKey, cacheGet_del]
    simp [prime, h3]

/-- Witness for C6 at a concrete cache, key and values. -/
theorem claim_C6_witness :
    cacheGet [] (.plain 5) = none
    ∧ cacheGet
        (prime (prime [] (.plain 5) ⟨some 1, none⟩) (.plain 5) ⟨some 2, none⟩)
        (.plain 5) = some ⟨some 1, none⟩ := by
  exact ⟨rfl, (claim_C6 [] (.plain 5) ⟨some 1, none⟩ ⟨some 2, none⟩).1 rfl⟩

/-! ## Notification (C3) and RunWithScheduler termination (C9) -/

/-- Counterexample to claim C3 as stated: with one waiter registered and then
released, a second `Notify` is not harmless for it — the waiter list is never
cleared, so the duplicate release closure performs a second `wg.Done()` on
the already-released join handle, which is fatal (the machine aborts),
whereas the identical program with a single `Notify` runs to completion. -/
theorem claim_C3_counterexample :
    runRoot 20 1 progDoubleNotify = ([], .fatal)
    ∧ runRoot 20 1 progSingleNotify = ([.rootRet], .halted) := by
  constructor
  · rfl
  · rfl

/-- Claim C3 (amended): `Notify` is sticky but not idempotent.  (i) Every
`Wait` issued strictly after a first `Notify` observes the sticky flag and
continues immediately, registering no waiter and changing no state.  (ii) A
repeated `Notify` re-enqueues one release closure per waiter registered
before the first `Notify` (the waiter list is never cleared).  (iii)
Dispatching a release closure whose waiter's join handle was already
released is fatal (double `wg.Done()`), so an already-released waiter is
affected by a second `Notify` once its duplicate release runs. -/
theorem claim_C3 :
    (∀ (fuel : Nat) (st : MState) (b : Bool) (nid : Nat) (rest : Prog),
      (getNotif st nid).notified = true →
      machRun (fuel + 1) st (.exec b (.wait nid rest)) =
        machRun fuel st (.exec b rest))
    ∧ (∀ (fuel : Nat) (st : MState) (b : Bool) (nid : Nat) (rest : Prog),
        (getNotif st nid).notified = true →
        machRun (fuel + 1) st (.exec b (.notify nid rest)) =
          machRun fuel
            { setNotif st nid ⟨true, (getNotif st nid).q⟩ with
              normalQ := st.normalQ ++ (getNotif st nid).q.map QTask.release }
            (.exec b rest))
    ∧ (∀ (fuel : Nat) (st : MState) (b : Bool) (w : Nat),
        st.normalQ.getLast? = some (QTask.release w) →
        st.waiters.getD w none = none →
        machRun (fuel + 1) st (.dispatch b) = ([], .fatal)) := by
  refine ⟨?_, ?_, ?_⟩
  · intro fuel st b nid rest h
    simp [machRun, h]
  · intro fuel st b nid rest _
    simp [machRun, setNotif]
  · intro fuel st b w h hw
    have hp := schedulePick_normal st.normalQ st.lowQ (QTask.release w) h
    rw [List.getD_eq_getElem?_getD] at hw
    simp [machRun, hp, hw]

/-- Witness for C3 at a concrete notification state. -/
theorem claim_C3_witness :
    machRun 1 ⟨[], [], [⟨true, []⟩], []⟩ (.exec true (.wait 0 .nil)) =
      machRun 0 ⟨[], [], [⟨true, []⟩], []⟩ (.exec true .nil)
    ∧ machRun 1 ⟨[.release 3], [], [], []⟩ (.dispatch true) = ([], .fatal) := by
  constructor
  · exact claim_C3.1 0 ⟨[], [], [⟨true, []⟩], []⟩ true 0 .nil rfl
  · exact claim_C3.2.2 0 ⟨[.release 3], [], [], []⟩ true 3 rfl rfl

/-- Claim C9: evaluation of the whole scheduler machine on
`progEarlyReturn` — the root dispatch loop pops the release closure of the
waiter `Y` (suspended inside a non-root loop), so `RunWithScheduler` returns
(`Ev.rootRet`) strictly before task `Y` runs its body (`Ev.mark 42`),
contradicting "returns only after every task has been executed". -/
theorem claim_C9 :
    runRoot 30 2 progEarlyReturn = ([.rootRet, .mark 42], .halted) := by
  rfl

/-! ## LoadMany phase 2 at the failing input (C4) -/

theorem c4_phase2 :
    phase2go [(.plain 0, vA)] [.plain 0, .plain 1] [.plain 0, .plain 1]
      [0, 1] [⟨none, none⟩, ⟨none, none⟩] [] 0 =
      ([.plain 1], [1], [vA, ⟨none, none⟩], []) := by
  rw [phase2go]
  norm_num [cacheGet, vA, swapRemove]
  rw [phase2go]
  norm_num

/-- Claim C4: evaluation of the code at the failing input.  `LoadMany`
of the two plain keys `0` and `1`, both phase-1 misses, with key `0` cached
(value `vA`) by the time the write lock is acquired.  The phase-2 loop
swap-removes the now-hit entry `0` from `keysToFetch`/`keysToFetchIndex` but
(a) the swapped-in still-miss key `1` is skipped by the `i++` and never added
to the pending set (the returned pending set is empty, so no fetch happens
and the callback is never invoked), and (b) the final read loop indexes the
unshrunk `mkeysToFetch` with the position in the shrunk lists, so output
position `1` receives the cached value of key `0` (`vA`) instead of a value
for key `1`; key `1` is absent from the final cache.  The claim instead
requires the still-miss key to be registered pending and position `1` to read
the value of its own key. -/
theorem claim_C4 :
    phase2go [(.plain 0, vA)] [.plain 0, .plain 1] [.plain 0, .plain 1]
        [0, 1] [⟨none, none⟩, ⟨none, none⟩] [] 0 =
      ([.plain 1], [1], [vA, ⟨none, none⟩], [])
    ∧ midResult = ⟨[vA, vA], ⟨[(.plain 0, vA)], []⟩, []⟩
    ∧ cacheGet midResult.st.cache (.plain 1) = none
    ∧ midResult.invocations = []
    ∧ midResult.values.getD 1 zeroValue = vA := by
  have h1 : midResult = ⟨[vA, vA], ⟨[(.plain 0, vA)], []⟩, []⟩ := by
    unfold midResult loadManyMid
    norm_num [phase1Values, phase1Misses, phase1MissesGo, cacheGet, getMapKey,
      zeroValue]
    rw [c4_phase2]
    norm_num [fetchPending, finalReadGo, cacheGet, vA]
  refine ⟨c4_phase2, h1, ?_, ?_, ?_⟩
  · rw [h1]
    norm_num [cacheGet, vA]
  · rw [h1]
  · rw [h1]
    rfl

/-! ## Fetch-cycle guard and callback discipline (C7) -/

theorem fetchPending_invocations (cb : BatchLoader) (cache : Cache)
    (pending : Pending) :
    (fetchPending cb cache pending).2.2 =
      if pending.filter (fun e => (cacheGet cache e.1).isNone) = [] then []
      else [(pending.filter (fun e => (cacheGet cache e.1).isNone)).map (·.2)] := by
  unfold fetchPending
  by_cases hp : pending.filter (fun e => (cacheGet cache e.1).isNone) = []
  · simp [hp]
  · have hne : ¬((pending.filter
        (fun e => (cacheGet cache e.1).isNone)).map (·.2)).isEmpty = true := by
      simp [List.isEmpty_iff, hp]
    simp [hne, if_neg hp]

/-- Claim C7: `scheduleFetch` spawns a new low-priority fetch task only when
no fetch cycle is in flight (`fetchDone == nil`), otherwise it returns the
in-flight handle unchanged — so at most one cycle is in flight, guarded by
the single `fetchDone` handle; and one run of `fetchPending` invokes the
batch callback at most once, never with an empty key list, and not at all if
every pending map key is already cached. -/
theorem claim_C7 (fd : Option Nat) (fresh : Nat) (cb : BatchLoader)
    (cache : Cache) (pending : Pending) :
    ((scheduleFetchS fd fresh).2.2 = true ↔ fd = none)
    ∧ (scheduleFetchS fd fresh).2.1.isSome = true
    ∧ (∀ n, fd = some n → scheduleFetchS fd fresh = (some n, some n, false))
    ∧ (fetchPending cb cache pending).2.2.length ≤ 1
    ∧ (∀ ks ∈ (fetchPending cb cache pending).2.2, ks ≠ [])
    ∧ ((∀ e ∈ pending, (cacheGet cache e.1).isSome = true) →
        (fetchPending cb cache pending).2.2 = []) := by
  refine ⟨?_, ?_, ?_, ?_, ?_, ?_⟩
  · cases fd <;> simp [scheduleFetchS]
  · cases fd <;> simp [scheduleFetchS]
  · intro n h
    subst h
    rfl
  · rw [fetchPending_invocations]
    by_cases hp : pending.filter (fun e => (cacheGet cache e.1).isNone) = [] <;>
      simp [hp]
  · intro ks hks
    rw [fetchPending_invocations] at hks
    by_cases hp : pending.filter (fun e => (cacheGet cache e.1).isNone) = []
    · simp [hp] at hks
    · simp only [if_neg hp, List.mem_singleton] at hks
      subst hks
      simp [hp]
  · intro hall
    rw [fetchPending_invocations]
    have hp : pending.filter (fun e => (cacheGet cache e.1).isNone) = [] := by
      rw [List.filter_eq_nil_iff]
      intro e he
      have := hall e he
      simp [Option.isNone_iff_eq_none]
      exact Option.isSome_iff_exists.1 this |>.elim (fun v hv => by simp [hv])
    simp [hp]

/-- Witness for C7 at concrete inputs. -/
theorem claim_C7_witness :
    scheduleFetchS (some 5) 0 = (some 5, some 5, false)
    ∧ (fetchPending cbDemo [(.plain 0, vA)] [(.plain 0, .plain 0)]).2.2 = [] := by
  constructor
  · exact (claim_C7 (some 5) 0 cbDemo [] []).2.2.1 5 rfl
  · refine (claim_C7 none 0 cbDemo [(.plain 0, vA)] [(.plain 0, .plain 0)]).2.2.2.2.2 ?_
    intro e he
    simp at he
    subst he
    simp [cacheGet]

/-! ## Map-key addressing of Load/LoadMany (C8) and of Prime/Clear (C10) -/

theorem loadManySync_single_hit (cb : BatchLoader) (st : DLState) (k : KeyV)
    (v : GoValue) (h : cacheGet st.cache (getMapKey k) = some v) :
    loadManySync cb st [k] = ⟨[v], st, []⟩ := by
  unfold loadManySync loadManyMid
  simp [phase1Values, phase1Misses, phase1MissesGo, h]

theorem phase2_single_miss (cache : Cache) (k m : KeyV) (p : Pending)
    (vals : List GoValue) (h : cacheGet cache m = none) :
    phase2go cache [k] [m] [0] vals p 0 =
      ([k], [0], vals, pendingSet p m k) := by
  rw [phase2go]
  simp [h]
  rw [phase2go]
  simp

theorem loadManySync_single_miss (cb : BatchLoader) (st : DLState) (k : KeyV)
    (v : GoValue) (hp : st.pending = [])
    (h : cacheGet st.cache (getMapKey k) = none) (hcb : cb [k] = [v]) :
    loadManySync cb st [k] =
      ⟨[v], ⟨cacheSet st.cache (getMapKey k) v, []⟩, [[k]]⟩ := by
  unfold loadManySync loadManyMid
  simp only [phase1Values, phase1Misses, phase1MissesGo, List.map, h,
    Option.isNone_none, if_pos, Option.getD_none]
  rw [hp, phase2_single_miss st.cache k (getMapKey k) [] _ h]
  simp [fetchPending, pendingSet, pendingDel, h, hcb, finalReadGo, List.isEmpty]

/-- Claim C8: `Load`/`LoadMany` address the cache and the pending set
exclusively by the derived map key, while the batch callback receives the
original key object.  A cache hit under `getMapKey k` returns immediately
(whatever `k` itself is); the phase-2 re-check registers the pair
`(getMapKey k, k)` in the pending set; a miss invokes the callback with the
original `k`, stores the result under `getMapKey k`, and leaves the cache
entry at `k` itself untouched when the derived key differs. -/
theorem claim_C8 (cb : BatchLoader) (st : DLState) (k : KeyV) (v : GoValue) :
    (∀ w, cacheGet st.cache (getMapKey k) = some w →
      loadManySync cb st [k] = ⟨[w], st, []⟩)
    ∧ (cacheGet st.cache (getMapKey k) = none →
        (phase2go st.cache [k] [getMapKey k] [0] [zeroValue] [] 0).2.2.2 =
          [(getMapKey k, k)])
    ∧ (st.pending = [] → cacheGet st.cache (getMapKey k) = none →
        cb [k] = [v] →
        loadManySync cb st [k] =
          ⟨[v], ⟨cacheSet st.cache (getMapKey k) v, []⟩, [[k]]⟩
        ∧ (loadManySync cb st [k]).invocations = [[k]]
        ∧ cacheGet (loadManySync cb st [k]).st.cache (getMapKey k) = some v
        ∧ (k ≠ getMapKey k →
            cacheGet (loadManySync cb st [k]).st.cache k =
              cacheGet st.cache k)) := by
  refine ⟨fun w hw => loadManySync_single_hit cb st k w hw, ?_, ?_⟩
  · intro h
    rw [phase2_single_miss st.cache k (getMapKey k) [] [zeroValue] h]
    rfl
  · intro hp h hcb
    have heq := loadManySync_single_miss cb st k v hp h hcb
    refine ⟨heq, by rw [heq], by rw [heq]; exact cacheGet_set_self _ _ _, ?_⟩
    intro hk
    rw [heq]
    exact cacheGet_set_ne st.cache (getMapKey k) k v hk

/-- Witness for C8 at a concrete key and state. -/
theorem claim_C8_witness :
    loadManySync cbDemo ⟨[(.plain 9, vA)], []⟩ [.withMapKey 5 9] =
      ⟨[vA], ⟨[(.plain 9, vA)], []⟩, []⟩
    ∧ loadManySync cbDemo ⟨[], []⟩ [.withMapKey 5 9] =
        ⟨[⟨some 114, none⟩],
          ⟨cacheSet [] (.plain 9) ⟨some 114, none⟩, []⟩, [[.withMapKey 5 9]]⟩ := by
  constructor
  · exact (claim_C8 cbDemo ⟨[(.plain 9, vA)], []⟩ (.withMapKey 5 9) vA).1 vA
      (by simp [cacheGet, getMapKey])
  · exact ((claim_C8 cbDemo ⟨[], []⟩ (.withMapKey 5 9) ⟨some 114, none⟩).2.2
      rfl (by simp [cacheGet, getMapKey]) (by norm_num [cbDemo])).1

/-- Claim C10: `Prime` and `Clear` address the cache by the key object as
given, without applying the map-key derivation.  For a `MapKeyer` key `k`
(whose derived key differs from `k`), `prime k v` stores under `k` and not
under the derived key, so a subsequent load of `k` — which probes the derived
key — misses and invokes the batch callback instead of observing the primed
value; and `clear k` does not remove an entry stored under the derived
key. -/
theorem claim_C10 (ctx mk : Int) (c : Cache) (v w : GoValue)
    (cb : BatchLoader) :
    getMapKey (.withMapKey ctx mk) ≠ .withMapKey ctx mk
    ∧ (cacheGet c (.withMapKey ctx mk) = none →
        cacheGet (prime c (.withMapKey ctx mk) v) (.withMapKey ctx mk) = some v)
    ∧ cacheGet (prime c (.withMapKey ctx mk) v) (getMapKey (.withMapKey ctx mk))
        = cacheGet c (getMapKey (.withMapKey ctx mk))
    ∧ (cacheGet c (getMapKey (.withMapKey ctx mk)) = none →
        ∀ v2, cb [.withMapKey ctx mk] = [v2] →
        loadManySync cb ⟨prime c (.withMapKey ctx mk) v, []⟩
            [.withMapKey ctx mk] =
          ⟨[v2], ⟨cacheSet (prime c (.withMapKey ctx mk) v)
            (getMapKey (.withMapKey ctx mk)) v2, []⟩, [[.withMapKey ctx mk]]⟩)
    ∧ cacheGet (clearKey (cacheSet c (getMapKey (.withMapKey ctx mk)) w)
        (.withMapKey ctx mk)) (getMapKey (.withMapKey ctx mk)) = some w := by
  have hne : getMapKey (.withMapKey ctx mk) ≠ KeyV.withMapKey ctx mk := by
    simp [getMapKey]
  have hprime : cacheGet (prime c (.withMapKey ctx mk) v)
      (getMapKey (.withMapKey ctx mk)) =
      cacheGet c (getMapKey (.withMapKey ctx mk)) := by
    unfold prime
    cases hc : cacheGet c (.withMapKey ctx mk) with
    | some u => rfl
    | none =>
      exact cacheGet_set_ne c (.withMapKey ctx mk) (getMapKey (.withMapKey ctx mk)) v hne
  refine ⟨hne, ?_, hprime, ?_, ?_⟩
  · intro hc
    simp [prime, hc]
  · intro hc v2 hcb
    exact loadManySync_single_miss cb ⟨prime c (.withMapKey ctx mk) v, []⟩
      (.withMapKey ctx mk) v2 rfl (by rw [hprime]; exact hc) hcb
  · rw [clearKey, cacheGet_del]
    rw [if_neg hne]
    exact cacheGet_set_self _ _ _

/-- Witness for C10 at a concrete key and values. -/
theorem claim_C10_witness :
    cacheGet (prime [] (.withMapKey 5 9) vA) (.withMapKey 5 9) = some vA
    ∧ loadManySync cbDemo ⟨prime [] (.withMapKey 5 9) vA, []⟩
        [.withMapKey 5 9] =
      ⟨[⟨some 114, none⟩],
        ⟨cacheSet (prime [] (.withMapKey 5 9) vA) (.plain 9) ⟨some 114, none⟩,
          []⟩, [[.withMapKey 5 9]]⟩ := by
  constructor
  · exact (claim_C10 5 9 [] vA vA cbDemo).2.1 rfl
  · exact (claim_C10 5 9 [] vA vA cbDemo).2.2.2.1 rfl ⟨some 114, none⟩
      (by norm_num [cbDemo])

/-! ## Dedup and caching across call sequences (C1) -/


theorem cacheGet_foldl_set_of_not_mem (l : List (KeyV × GoValue)) :
    ∀ (c : Cache) (m : KeyV), (∀ e ∈ l, e.1 ≠ m) →
      cacheGet (l.foldl (fun c e => cacheSet c e.1 e.2) c) m = cacheGet c m := by
  induction l with
  | nil => intro c m _; rfl
  | cons e rest ih =>
    intro c m h
    have he : e.1 ≠ m := h e (by simp)
    have hm : m ≠ e.1 := fun hh => he hh.symm
    simp only [List.foldl_cons]
    rw [ih (cacheSet c e.1 e.2) m (fun x hx => h x (by simp [hx]))]
    exact cacheGet_set_ne c e.1 m e.2 hm

theorem cacheGet_foldl_set_isSome_mono (l : List (KeyV × GoValue)) :
    ∀ (c : Cache) (m : KeyV), (cacheGet c m).isSome = true →
      (cacheGet (l.foldl (fun c e => cacheSet c e.1 e.2) c) m).isSome = true := by
  induction l with
  | nil => intro c m h; exact h
  | cons e rest ih =>
    intro c m h
    simp only [List.foldl_cons]
    refine ih (cacheSet c e.1 e.2) m ?_
    rw [cacheGet_set]
    by_cases hm : m = e.1
    · simp [hm]
    · simp [hm, h]

theorem cacheGet_foldl_set_isSome_of_mem (l : List (KeyV × GoValue)) :
    ∀ (c : Cache) (m : KeyV), m ∈ l.map (·.1) →
      (cacheGet (l.foldl (fun c e => cacheSet c e.1 e.2) c) m).isSome = true := by
  induction l with
  | nil => intro c m h; simp at h
  | cons e rest ih =>
    intro c m h
    simp only [List.map_cons, List.mem_cons] at h
    simp only [List.foldl_cons]
    cases h with
    | inl h =>
      rw [h]
      exact cacheGet_foldl_set_isSome_mono rest _ e.1 (by simp)
    | inr h => exact ih _ m h

theorem fetchPending_pending (cb : BatchLoader) (cache : Cache) (p : Pending) :
    (fetchPending cb cache p).2.1 = [] := by
  unfold fetchPending
  by_cases h : ((p.filter (fun e => (cacheGet cache e.1).isNone)).map (·.2)).isEmpty = true <;>
    simp [h]

theorem fetchPending_cache_eq (cb : BatchLoader) (cache : Cache) (p : Pending) :
    (fetchPending cb cache p).1 =
      (((p.filter (fun e => (cacheGet cache e.1).isNone)).map (·.1)).zip
        (cb ((p.filter (fun e => (cacheGet cache e.1).isNone)).map (·.2)))).foldl
        (fun c e => cacheSet c e.1 e.2) cache := by
  unfold fetchPending
  by_cases hemp : ((p.filter (fun e => (cacheGet cache e.1).isNone)).map (·.2)).isEmpty = true
  · have hnil : p.filter (fun e => (cacheGet cache e.1).isNone) = [] := by
      rw [List.isEmpty_iff, List.map_eq_nil_iff] at hemp
      exact hemp
    simp [hemp, hnil]
  · rw [if_neg hemp]

theorem fetchPending_cache_mono (cb : BatchLoader) (cache : Cache)
    (p : Pending) (m : KeyV) (v : GoValue) (h : cacheGet cache m = some v) :
    cacheGet (fetchPending cb cache p).1 m = some v := by
  rw [fetchPending_cache_eq]
  rw [cacheGet_foldl_set_of_not_mem]
  · exact h
  · intro e he
    have h1 : e.1 ∈ (p.filter (fun x => (cacheGet cache x.1).isNone)).map (·.1) :=
      (List.of_mem_zip he).1
    obtain ⟨x, hx, hx1⟩ := List.mem_map.1 h1
    have hnone := (List.mem_filter.1 hx).2
    intro hem
    rw [hx1, hem, h] at hnone
    simp at hnone

theorem fetchPending_cache_covers (cb : BatchLoader) (cache : Cache)
    (p : Pending) (hlen : ∀ ks, (cb ks).length = ks.length) (m : KeyV)
    (hm : m ∈ (p.filter (fun e => (cacheGet cache e.1).isNone)).map (·.1)) :
    (cacheGet (fetchPending cb cache p).1 m).isSome = true := by
  rw [fetchPending_cache_eq]
  apply cacheGet_foldl_set_isSome_of_mem
  have hle : ((p.filter (fun e => (cacheGet cache e.1).isNone)).map (·.1)).length ≤
      (cb ((p.filter (fun e => (cacheGet cache e.1).isNone)).map (·.2))).length := by
    rw [hlen]
    simp
  rw [List.map_fst_zip _ _ hle]
  exact hm



/- pendingDel / pendingSet / pendingFold membership and nodup -/
theorem pendingDel_subset (p : Pending) (k : KeyV) :
    ∀ e ∈ pendingDel p k, e ∈ p ∧ e.1 ≠ k := by
  induction p with
  | nil => intro e he; simp [pendingDel] at he
  | cons x rest ih =>
    intro e he
    by_cases hx : x.1 = k
    · simp only [pendingDel, if_pos hx] at he
      have := ih e he
      exact ⟨by simp [this.1], this.2⟩
    · simp only [pendingDel, if_neg hx, List.mem_cons] at he
      cases he with
      | inl h => exact ⟨by simp [h], by rw [h]; exact hx⟩
      | inr h =>
        have := ih e h
        exact ⟨by simp [this.1], this.2⟩

theorem pendingDel_nodupkeys (p : Pending) (k : KeyV)
    (h : (p.map (·.1)).Nodup) : ((pendingDel p k).map (·.1)).Nodup := by
  induction p with
  | nil => simp [pendingDel]
  | cons x rest ih =>
    simp only [List.map_cons, List.nodup_cons] at h
    by_cases hx : x.1 = k
    · simp only [pendingDel, if_pos hx]
      exact ih h.2
    · simp only [pendingDel, if_neg hx, List.map_cons, List.nodup_cons]
      refine ⟨?_, ih h.2⟩
      intro hmem
      obtain ⟨e, he, he1⟩ := List.mem_map.1 hmem
      exact h.1 (List.mem_map.2 ⟨e, (pendingDel_subset rest k e he).1, he1⟩)

theorem pendingSet_nodupkeys (p : Pending) (mk k : KeyV)
    (h : (p.map (·.1)).Nodup) : ((pendingSet p mk k).map (·.1)).Nodup := by
  simp only [pendingSet, List.map_cons, List.nodup_cons]
  refine ⟨?_, pendingDel_nodupkeys p mk h⟩
  intro hmem
  obtain ⟨e, he, he1⟩ := List.mem_map.1 hmem
  exact (pendingDel_subset p mk e he).2 he1

theorem pendingSet_mem (p : Pending) (mk k : KeyV) :
    ∀ e ∈ pendingSet p mk k, e = (mk, k) ∨ e ∈ p := by
  intro e he
  simp only [pendingSet, List.mem_cons] at he
  cases he with
  | inl h => exact Or.inl h
  | inr h => exact Or.inr (pendingDel_subset p mk e h).1

theorem pendingFold_mem (l : List (KeyV × KeyV)) :
    ∀ (p : Pending), ∀ e ∈ pendingFold p l, e ∈ p ∨ e ∈ l := by
  induction l with
  | nil => intro p e he; exact Or.inl he
  | cons x rest ih =>
    intro p e he
    simp only [pendingFold, List.foldl_cons] at he
    have := ih (pendingSet p x.1 x.2) e he
    cases this with
    | inl h =>
      cases pendingSet_mem p x.1 x.2 e h with
      | inl h2 => exact Or.inr (by simp [h2])
      | inr h2 => exact Or.inl h2
    | inr h => exact Or.inr (by simp [h])

theorem pendingFold_nodupkeys (l : List (KeyV × KeyV)) :
    ∀ (p : Pending), (p.map (·.1)).Nodup →
      ((pendingFold p l).map (·.1)).Nodup := by
  induction l with
  | nil => intro p h; exact h
  | cons x rest ih =>
    intro p h
    simp only [pendingFold, List.foldl_cons]
    exact ih (pendingSet p x.1 x.2) (pendingSet_nodupkeys p x.1 x.2 h)

/- phase1MissesGo membership and shift -/
theorem phase1MissesGo_mem (cache : Cache) :
    ∀ (keys : List KeyV) (i : Nat), ∀ t ∈ phase1MissesGo cache keys i,
      t.2.1 = getMapKey t.1 ∧ cacheGet cache t.2.1 = none ∧ t.1 ∈ keys := by
  intro keys
  induction keys with
  | nil => intro i t ht; simp [phase1MissesGo] at ht
  | cons k rest ih =>
    intro i t ht
    by_cases hk : (cacheGet cache (getMapKey k)).isNone = true
    · simp only [phase1MissesGo, if_pos hk, List.mem_cons] at ht
      cases ht with
      | inl h =>
        subst h
        exact ⟨rfl, Option.isNone_iff_eq_none.1 hk, by simp⟩
      | inr h =>
        have := ih (i + 1) t h
        exact ⟨this.1, this.2.1, by simp [this.2.2]⟩
    · simp only [phase1MissesGo, if_neg hk] at ht
      have := ih (i + 1) t ht
      exact ⟨this.1, this.2.1, by simp [this.2.2]⟩

theorem phase1MissesGo_shift (cache : Cache) :
    ∀ (keys : List KeyV) (i : Nat),
      phase1MissesGo cache keys (i + 1) =
        (phase1MissesGo cache keys i).map (fun t => (t.1, t.2.1, t.2.2 + 1)) := by
  intro keys
  induction keys with
  | nil => intro i; simp [phase1MissesGo]
  | cons k rest ih =>
    intro i
    by_cases hk : (cacheGet cache (getMapKey k)).isNone = true
    · simp only [phase1MissesGo, if_pos hk, ih (i + 1), List.map_cons]
    · simp only [phase1MissesGo, if_neg hk, ih (i + 1)]



/- phase2go: the no-hit case is the identity on the three lists and folds the
   pending inserts -/
theorem phase2go_no_hit_aux (cache : Cache) (kt mkt : List KeyV)
    (kti : List Nat) (hmk : kt.length ≤ mkt.length) :
    ∀ (n : Nat) (vals : List GoValue) (p : Pending) (i : Nat),
      kt.length - i ≤ n →
      (∀ j, i ≤ j → j < kt.length → cacheGet cache (mkt.getD j (.plain 0)) = none) →
      phase2go cache kt mkt kti vals p i =
        (kt, kti, vals, pendingFold p ((mkt.zip kt).drop i)) := by
  intro n
  induction n with
  | zero =>
    intro vals p i hn h
    have hge : kt.length ≤ i := by omega
    rw [phase2go]
    rw [dif_neg (by omega)]
    have hdrop : (mkt.zip kt).drop i = [] := by
      apply List.drop_eq_nil_of_le
      calc (mkt.zip kt).length ≤ kt.length := by
            rw [List.length_zip]; exact min_le_right _ _
        _ ≤ i := hge
    rw [hdrop]
    rfl
  | succ n ih =>
    intro vals p i hn h
    by_cases hi : i < kt.length
    · rw [phase2go, dif_pos hi]
      simp only [h i (le_refl i) hi]
      have hstep := ih vals (pendingSet p (mkt.getD i (.plain 0)) (kt.getD i (.plain 0))) (i + 1) (by omega) (fun j hj1 hj2 => h j (by omega) hj2)
      rw [hstep]
      have hzlen : i < (mkt.zip kt).length := by
        simp [List.length_zip]
        omega
      have hdrop : (mkt.zip kt).drop i =
          (mkt.getD i (.plain 0), kt.getD i (.plain 0)) :: (mkt.zip kt).drop (i + 1) := by
        rw [List.drop_eq_getElem_cons hzlen]
        congr 1
        have hilt : i < mkt.length := by omega
        have h1 : (mkt.zip kt)[i] = (mkt[i], kt[i]) := by
          simp [List.getElem_zip]
        rw [h1]
        have h2 : mkt.getD i (.plain 0) = mkt[i] := by
          simp [List.getD_eq_getElem?_getD, List.getElem?_eq_getElem hilt]
        have h3 : kt.getD i (.plain 0) = kt[i] := by
          simp [List.getD_eq_getElem?_getD, List.getElem?_eq_getElem hi]
        rw [h2, h3]
      rw [hdrop]
      rfl
    · rw [phase2go, dif_neg hi]
      have hdrop : (mkt.zip kt).drop i = [] := by
        apply List.drop_eq_nil_of_le
        calc (mkt.zip kt).length ≤ kt.length := by
              rw [List.length_zip]; exact min_le_right _ _
          _ ≤ i := by omega
      rw [hdrop]
      rfl

theorem phase2go_no_hit (cache : Cache) (kt mkt : List KeyV) (kti : List Nat)
    (vals : List GoValue) (p : Pending) (hmk : kt.length ≤ mkt.length)
    (h : ∀ j, j < kt.length → cacheGet cache (mkt.getD j (.plain 0)) = none) :
    phase2go cache kt mkt kti vals p 0 =
      (kt, kti, vals, pendingFold p (mkt.zip kt)) := by
  have := phase2go_no_hit_aux cache kt mkt kti hmk kt.length vals p 0 (by omega)
    (fun j _ hj => h j hj)
  simpa using this



theorem finalReadGo_mkt_cons (cache : Cache) (m0 : KeyV) (mkt : List KeyV) :
    ∀ (kti : List Nat) (vsi : Nat) (vals : List GoValue),
      finalReadGo cache (m0 :: mkt) kti (vsi + 1) vals =
        finalReadGo cache mkt kti vsi vals := by
  intro kti
  induction kti with
  | nil => intro vsi vals; rfl
  | cons vi rest ih =>
    intro vsi vals
    simp only [finalReadGo]
    rw [ih (vsi + 1)]
    rfl

theorem finalReadGo_cons_pos (cache : Cache) (mkt : List KeyV) :
    ∀ (kti : List Nat) (vsi : Nat) (v0 : GoValue) (vals : List GoValue),
      (∀ q ∈ kti, 1 ≤ q) →
      finalReadGo cache mkt kti vsi (v0 :: vals) =
        v0 :: finalReadGo cache mkt (kti.map (fun q => q - 1)) vsi vals := by
  intro kti
  induction kti with
  | nil => intro vsi v0 vals _; rfl
  | cons vi rest ih =>
    intro vsi v0 vals h
    have hvi : 1 ≤ vi := h vi (by simp)
    obtain ⟨q, rfl⟩ : ∃ q, vi = q + 1 := ⟨vi - 1, by omega⟩
    simp only [finalReadGo, List.map_cons]
    rw [List.set_cons_succ]
    rw [ih (vsi + 1) v0 _ (fun q hq => h q (by simp [hq]))]
    have hq1 : q + 1 - 1 = q := by omega
    rw [hq1]



theorem phase1MissesGo_cons (cache : Cache) (k : KeyV) (rest : List KeyV)
    (i : Nat) :
    phase1MissesGo cache (k :: rest) i =
      if (cacheGet cache (getMapKey k)).isNone then
        (k, getMapKey k, i) :: phase1MissesGo cache rest (i + 1)
      else phase1MissesGo cache rest (i + 1) := rfl

theorem phase1_mkt_shift (cache : Cache) :
    ∀ (keys : List KeyV) (i : Nat),
      (phase1MissesGo cache keys (i + 1)).map (·.2.1) =
        (phase1MissesGo cache keys i).map (·.2.1) := by
  intro keys
  induction keys with
  | nil => intro i; rfl
  | cons k rest ih =>
    intro i
    by_cases hk : (cacheGet cache (getMapKey k)).isNone = true
    · rw [phase1MissesGo_cons, phase1MissesGo_cons, if_pos hk, if_pos hk,
        List.map_cons, List.map_cons, ih]
    · rw [phase1MissesGo_cons, phase1MissesGo_cons, if_neg hk, if_neg hk, ih]

theorem phase1_kti_shift (cache : Cache) :
    ∀ (keys : List KeyV) (i : Nat),
      (phase1MissesGo cache keys (i + 1)).map (·.2.2) =
        ((phase1MissesGo cache keys i).map (·.2.2)).map (fun q => q + 1) := by
  intro keys
  induction keys with
  | nil => intro i; rfl
  | cons k rest ih =>
    intro i
    by_cases hk : (cacheGet cache (getMapKey k)).isNone = true
    · rw [phase1MissesGo_cons, phase1MissesGo_cons, if_pos hk, if_pos hk,
        List.map_cons, List.map_cons, List.map_cons, ih]
    · rw [phase1MissesGo_cons, phase1MissesGo_cons, if_neg hk, if_neg hk, ih]

theorem phase1Values_cons (cache : Cache) (k : KeyV) (rest : List KeyV) :
    phase1Values cache (k :: rest) =
      (cacheGet cache (getMapKey k)).getD zeroValue ::
        phase1Values cache rest := rfl

theorem finalRead_phase1 (cache cache2 : Cache)
    (hmono : ∀ m v, cacheGet cache m = some v → cacheGet cache2 m = some v) :
    ∀ (keys : List KeyV),
      finalReadGo cache2 ((phase1MissesGo cache keys 0).map (·.2.1))
          ((phase1MissesGo cache keys 0).map (·.2.2)) 0
          (phase1Values cache keys) =
        phase1Values cache2 keys := by
  intro keys
  induction keys with
  | nil => rfl
  | cons k rest ih =>
    have hge1 : ∀ q ∈ ((phase1MissesGo cache rest 0).map (·.2.2)).map
        (fun q => q + 1), 1 ≤ q := by
      intro q hq
      obtain ⟨t, _, ht⟩ := List.mem_map.1 hq
      omega
    have hid : (((phase1MissesGo cache rest 0).map (·.2.2)).map
        (fun q => q + 1)).map (fun q => q - 1) =
        (phase1MissesGo cache rest 0).map (·.2.2) := by
      rw [List.map_map]
      have : ((fun q : Nat => q - 1) ∘ (fun q : Nat => q + 1)) = id := by
        funext q
        simp
      rw [this, List.map_id]
    cases hk : cacheGet cache (getMapKey k) with
    | some v =>
      rw [phase1MissesGo_cons, if_neg (by simp [hk]), phase1Values_cons, hk,
        Option.getD_some, phase1_mkt_shift, phase1_kti_shift,
        finalReadGo_cons_pos cache2 _ _ 0 v (phase1Values cache rest) hge1,
        hid, ih, phase1Values_cons, hmono _ _ hk, Option.getD_some]
    | none =>
      rw [phase1MissesGo_cons, if_pos (by simp [hk]), phase1Values_cons, hk,
        Option.getD_none, List.map_cons, List.map_cons, phase1_mkt_shift,
        phase1_kti_shift]
      simp only [finalReadGo, List.getD_cons_zero, List.set_cons_zero]
      rw [finalReadGo_mkt_cons,
        finalReadGo_cons_pos cache2 _ _ 0 _ (phase1Values cache rest) hge1,
        hid, ih, phase1Values_cons]



theorem phase1_mkt_none (cache : Cache) (keys : List KeyV) (j : Nat)
    (hj : j < ((phase1MissesGo cache keys 0).map (·.2.1)).length) :
    cacheGet cache
      (((phase1MissesGo cache keys 0).map (·.2.1)).getD j (.plain 0)) = none := by
  have hmem : ((phase1MissesGo cache keys 0).map (·.2.1)).getD j (.plain 0) ∈
      (phase1MissesGo cache keys 0).map (·.2.1) := by
    rw [List.getD_eq_getElem?_getD, List.getElem?_eq_getElem hj]
    exact List.getElem_mem hj
  obtain ⟨t, ht, ht1⟩ := List.mem_map.1 hmem
  rw [← ht1]
  exact (phase1MissesGo_mem cache keys 0 t ht).2.1

theorem loadManySync_values (cb : BatchLoader) (st : DLState)
    (keys : List KeyV) :
    (loadManySync cb st keys).values =
      phase1Values (loadManySync cb st keys).st.cache keys := by
  unfold loadManySync loadManyMid
  simp only [phase1Misses]
  by_cases hkt : ((phase1MissesGo st.cache keys 0).map (·.1)).isEmpty = true
  · simp only [hkt, if_pos]
  · have hlen : ((phase1MissesGo st.cache keys 0).map (·.1)).length ≤
        ((phase1MissesGo st.cache keys 0).map (·.2.1)).length := by
      simp
    have hnone : ∀ j, j < ((phase1MissesGo st.cache keys 0).map (·.1)).length →
        cacheGet st.cache
          (((phase1MissesGo st.cache keys 0).map (·.2.1)).getD j (.plain 0)) =
          none := by
      intro j hj
      exact phase1_mkt_none st.cache keys j (by simpa using hj)
    rw [if_neg hkt]
    rw [phase2go_no_hit st.cache _ _ _ _ _ hlen hnone]
    simp only [hkt, if_neg, Bool.false_eq_true]
    rw [if_neg not_false]
    exact finalRead_phase1 st.cache _
      (fun m v h => fetchPending_cache_mono cb st.cache _ m v h) keys



theorem loadManySync_cache_mono (cb : BatchLoader) (st : DLState)
    (keys : List KeyV) (m : KeyV) (v : GoValue)
    (h : cacheGet st.cache m = some v) :
    cacheGet (loadManySync cb st keys).st.cache m = some v := by
  unfold loadManySync loadManyMid
  by_cases hkt : ((phase1Misses st.cache keys).map (·.1)).isEmpty = true
  · simp only [hkt, if_pos]
    exact h
  · rw [if_neg hkt]
    exact fetchPending_cache_mono cb st.cache _ m v h

theorem loadManySync_pending (cb : BatchLoader) (st : DLState)
    (keys : List KeyV) (hp : st.pending = []) :
    (loadManySync cb st keys).st.pending = [] := by
  unfold loadManySync loadManyMid
  by_cases hkt : ((phase1Misses st.cache keys).map (·.1)).isEmpty = true
  · simp only [hkt, if_pos]
    exact hp
  · rw [if_neg hkt]
    exact fetchPending_pending cb st.cache _

theorem loadManySync_invocations_spec (cb : BatchLoader)
    (hlenCb : ∀ ks, (cb ks).length = ks.length) (st : DLState)
    (hp : st.pending = []) (keys : List KeyV) :
    (loadManySync cb st keys).invocations = [] ∨
      ∃ ks, (loadManySync cb st keys).invocations = [ks] ∧ ks ≠ []
        ∧ (ks.map getMapKey).Nodup
        ∧ (∀ x ∈ ks, cacheGet st.cache (getMapKey x) = none)
        ∧ (∀ x ∈ ks,
            (cacheGet (loadManySync cb st keys).st.cache (getMapKey x)).isSome
              = true) := by
  have hzip : ((phase1Misses st.cache keys).map (·.2.1)).zip
      ((phase1Misses st.cache keys).map (·.1)) =
      (phase1Misses st.cache keys).map (fun t => (t.2.1, t.1)) :=
    List.zip_map' _ _ _
  have hpend : ∀ e ∈ pendingFold st.pending
      (((phase1Misses st.cache keys).map (·.2.1)).zip
        ((phase1Misses st.cache keys).map (·.1))),
      e.1 = getMapKey e.2 ∧ cacheGet st.cache e.1 = none := by
    intro e he
    cases pendingFold_mem _ st.pending e he with
    | inl h2 =>
      rw [hp] at h2
      simp at h2
    | inr h2 =>
      rw [hzip] at h2
      obtain ⟨t, ht, ht2⟩ := List.mem_map.1 h2
      have := phase1MissesGo_mem st.cache keys 0 t ht
      subst ht2
      exact ⟨this.1, this.2.1⟩
  unfold loadManySync loadManyMid
  by_cases hkt : ((phase1Misses st.cache keys).map (·.1)).isEmpty = true
  · simp only [hkt, if_pos]
    exact Or.inl trivial
  · rw [if_neg hkt]
    have hlen : ((phase1Misses st.cache keys).map (·.1)).length ≤
        ((phase1Misses st.cache keys).map (·.2.1)).length := by
      simp
    have hnone : ∀ j, j < ((phase1Misses st.cache keys).map (·.1)).length →
        cacheGet st.cache
          (((phase1Misses st.cache keys).map (·.2.1)).getD j (.plain 0)) =
          none := by
      intro j hj
      exact phase1_mkt_none st.cache keys j (by simpa using hj)
    rw [phase2go_no_hit st.cache _ _ _ _ _ hlen hnone]
    simp only []
    set pend := pendingFold st.pending
      (((phase1Misses st.cache keys).map (·.2.1)).zip
        ((phase1Misses st.cache keys).map (·.1))) with hpdef
    have hfilter : pend.filter (fun e => (cacheGet st.cache e.1).isNone) =
        pend := by
      apply List.filter_eq_self.2
      intro e he
      simp [(hpend e he).2]
    rw [fetchPending_invocations, hfilter]
    by_cases hpe : pend = []
    · rw [if_pos hpe]
      exact Or.inl rfl
    · rw [if_neg hpe]
      refine Or.inr ⟨pend.map (·.2), rfl, by simp [hpe], ?_, ?_, ?_⟩
      · have hmapeq : (pend.map (·.2)).map getMapKey = pend.map (·.1) := by
          rw [List.map_map]
          apply List.map_congr_left
          intro e he
          exact ((hpend e he).1).symm
        rw [hmapeq]
        apply pendingFold_nodupkeys
        rw [hp]
        simp
      · intro x hx
        obtain ⟨e, he, he2⟩ := List.mem_map.1 hx
        rw [← he2, ← (hpend e he).1]
        exact (hpend e he).2
      · intro x hx
        obtain ⟨e, he, he2⟩ := List.mem_map.1 hx
        apply fetchPending_cache_covers cb st.cache pend hlenCb
        rw [hfilter, ← he2, ← (hpend e he).1]
        exact List.mem_map.2 ⟨e, he, rfl⟩



theorem prime_cache_mono (c : Cache) (k : KeyV) (v0 : GoValue) (m : KeyV)
    (v : GoValue) (h : cacheGet c m = some v) :
    cacheGet (prime c k v0) m = some v := by
  unfold prime
  cases hc : cacheGet c k with
  | some u => exact h
  | none =>
    have hm : m ≠ k := by
      intro hh
      rw [hh, hc] at h
      exact Option.noConfusion h
    rw [cacheGet_set_ne c k m v0 hm]
    exact h

theorem phase1MissesGo_nil_of_hit (cache : Cache) :
    ∀ (keys : List KeyV) (i : Nat),
      (∀ k ∈ keys, (cacheGet cache (getMapKey k)).isSome = true) →
      phase1MissesGo cache keys i = [] := by
  intro keys
  induction keys with
  | nil => intro i _; rfl
  | cons k rest ih =>
    intro i h
    rw [phase1MissesGo_cons]
    have hk := h k (by simp)
    rw [if_neg (by simp [Option.isNone_iff_eq_none]; exact Option.isSome_iff_exists.1 hk |>.elim (fun v hv => by simp [hv]))]
    exact ih (i + 1) (fun x hx => h x (by simp [hx]))

theorem phase1Values_getD (cache : Cache) :
    ∀ (keys : List KeyV) (i : Nat), i < keys.length →
      (phase1Values cache keys).getD i zeroValue =
        (cacheGet cache (getMapKey (keys.getD i (.plain 0)))).getD zeroValue := by
  intro keys
  induction keys with
  | nil => intro i hi; simp at hi
  | cons k rest ih =>
    intro i hi
    cases i with
    | zero => rfl
    | succ j =>
      rw [phase1Values_cons]
      simp only [List.getD_cons_succ]
      exact ih j (by simpa using hi)

theorem runCalls_spec (cb : BatchLoader)
    (hlenCb : ∀ ks, (cb ks).length = ks.length) :
    ∀ (ops : List DLOp) (st : DLState), st.pending = [] →
      ((((runCalls cb st ops).2.join).map getMapKey).Nodup
      ∧ (∀ m ∈ ((runCalls cb st ops).2.join).map getMapKey,
          cacheGet st.cache m = none
          ∧ (cacheGet (runCalls cb st ops).1.cache m).isSome = true)
      ∧ (runCalls cb st ops).1.pending = []
      ∧ (∀ m v, cacheGet st.cache m = some v →
          cacheGet (runCalls cb st ops).1.cache m = some v)) := by
  intro ops
  induction ops with
  | nil =>
    intro st hp
    refine ⟨by simp [runCalls], by simp [runCalls], by simp [runCalls, hp], ?_⟩
    intro m v h
    simpa [runCalls] using h
  | cons op rest ih =>
    intro st hp
    cases op with
    | primeOp k v =>
      have hih := ih ⟨prime st.cache k v, st.pending⟩ hp
      simp only [runCalls]
      refine ⟨hih.1, ?_, hih.2.2.1, ?_⟩
      · intro m hm
        have h2 := hih.2.1 m hm
        refine ⟨?_, h2.2⟩
        cases hc : cacheGet st.cache m with
        | none => rfl
        | some u =>
          have := prime_cache_mono st.cache k v m u hc
          rw [this] at h2
          exact Option.noConfusion h2.1
      · intro m v2 h
        exact hih.2.2.2 m v2 (prime_cache_mono st.cache k v m v2 h)
    | loadMany keys =>
      have hpend := loadManySync_pending cb st keys hp
      have hcall := loadManySync_invocations_spec cb hlenCb st hp keys
      have hih := ih (loadManySync cb st keys).st hpend
      simp only [runCalls, List.join_append, List.map_append]
      have hBnoneSt : ∀ m ∈ ((runCalls cb (loadManySync cb st keys).st rest).2.join).map getMapKey,
          cacheGet st.cache m = none := by
        intro m hm
        have h2 := (hih.2.1 m hm).1
        cases hc : cacheGet st.cache m with
        | none => rfl
        | some u =>
          have := loadManySync_cache_mono cb st keys m u hc
          rw [this] at h2
          exact Option.noConfusion h2
      cases hcall with
      | inl hnil =>
        rw [hnil]
        simp only [List.join_nil, List.map_nil, List.nil_append]
        refine ⟨hih.1, ?_, hih.2.2.1, ?_⟩
        · intro m hm
          exact ⟨hBnoneSt m hm, (hih.2.1 m hm).2⟩
        · intro m v h
          exact hih.2.2.2 m v (loadManySync_cache_mono cb st keys m v h)
      | inr hspec =>
        obtain ⟨ks, hinv, hne, hnodup, hnoneSt, hsomeR⟩ := hspec
        rw [hinv]
        have hjoin : ([ks] : List (List KeyV)).flatten = ks := by simp
        rw [hjoin]
        have hA : ∀ m ∈ ks.map getMapKey, cacheGet st.cache m = none := by
          intro m hm
          obtain ⟨x, hx, hx2⟩ := List.mem_map.1 hm
          rw [← hx2]
          exact hnoneSt x hx
        have hAR : ∀ m ∈ ks.map getMapKey,
            (cacheGet (loadManySync cb st keys).st.cache m).isSome = true := by
          intro m hm
          obtain ⟨x, hx, hx2⟩ := List.mem_map.1 hm
          rw [← hx2]
          exact hsomeR x hx
        have hBnoneR : ∀ m ∈ ((runCalls cb (loadManySync cb st keys).st rest).2.join).map getMapKey,
            cacheGet (loadManySync cb st keys).st.cache m = none := fun m hm => (hih.2.1 m hm).1
        refine ⟨?_, ?_, hih.2.2.1, ?_⟩
        · rw [List.nodup_append]
          refine ⟨hnodup, hih.1, ?_⟩
          intro m hmA hmB
          have h1 := hAR m hmA
          have h2 := hBnoneR m hmB
          rw [h2] at h1
          exact Bool.noConfusion h1
        · intro m hm
          rw [List.mem_append] at hm
          cases hm with
          | inl hmA =>
            refine ⟨hA m hmA, ?_⟩
            have h1 := hAR m hmA
            obtain ⟨u, hu⟩ := Option.isSome_iff_exists.1 h1
            have := hih.2.2.2 m u hu
            simp [this]
          | inr hmB =>
            exact ⟨hBnoneSt m hmB, (hih.2.1 m hmB).2⟩
        · intro m v h
          exact hih.2.2.2 m v (loadManySync_cache_mono cb st keys m v h)



/-- Claim C1: for every sequence of load/loadMany (and prime) operations on
one Loader with no intervening clear, and a contract-conforming batch
callback (same-length results): (a) each distinct map key is passed to the
batch callback at most once across all callback invocations of the whole
sequence; (b) a load whose keys are all already cached or primed never
invokes the callback; (c) within one `LoadMany`, all positions requesting
the same map key receive the identical resulting `Value`; (d) cached values
are stable across further calls, so all callers of an already-fetched key
read the identical cached `Value`. -/
theorem claim_C1 (cb : BatchLoader)
    (hlenCb : ∀ ks, (cb ks).length = ks.length)
    (ops : List DLOp) (c0 : Cache) :
    (∀ m : KeyV,
      (((runCalls cb ⟨c0, []⟩ ops).2.join).map getMapKey).count m ≤ 1)
    ∧ (∀ (st : DLState) (keys : List KeyV),
        (∀ k ∈ keys, (cacheGet st.cache (getMapKey k)).isSome = true) →
        (loadManySync cb st keys).invocations = [])
    ∧ (∀ (st : DLState) (keys : List KeyV) (i j : Nat),
        i < keys.length → j < keys.length →
        getMapKey (keys.getD i (.plain 0)) = getMapKey (keys.getD j (.plain 0)) →
        (loadManySync cb st keys).values.getD i zeroValue =
          (loadManySync cb st keys).values.getD j zeroValue)
    ∧ (∀ (st : DLState) (keys : List KeyV) (m : KeyV) (v : GoValue),
        cacheGet st.cache m = some v →
        cacheGet (loadManySync cb st keys).st.cache m = some v) := by
  refine ⟨?_, ?_, ?_, fun st keys m v h => loadManySync_cache_mono cb st keys m v h⟩
  · intro m
    exact List.nodup_iff_count_le_one.1 (runCalls_spec cb hlenCb ops ⟨c0, []⟩ rfl).1 m
  · intro st keys hall
    have hmiss : phase1Misses st.cache keys = [] :=
      phase1MissesGo_nil_of_hit st.cache keys 0 hall
    unfold loadManySync loadManyMid
    simp [hmiss]
  · intro st keys i j hi hj hij
    rw [loadManySync_values]
    rw [phase1Values_getD _ keys i hi, phase1Values_getD _ keys j hj, hij]

/-- Witness for C1 at a concrete callback and call sequence. -/
theorem claim_C1_witness :
    (((runCalls cbDemo ⟨[], []⟩
        [.loadMany [.plain 1], .loadMany [.plain 1, .plain 2]]).2.join).map
          getMapKey).count (.plain 1) ≤ 1
    ∧ (loadManySync cbDemo ⟨[(.plain 3, vA)], []⟩ [.plain 3]).invocations = []
    ∧ (loadManySync cbDemo ⟨[], []⟩ [.plain 7, .plain 7]).values.getD 0
        zeroValue =
      (loadManySync cbDemo ⟨[], []⟩ [.plain 7, .plain 7]).values.getD 1
        zeroValue := by
  have hlen : ∀ ks, (cbDemo ks).length = ks.length := by
    intro ks
    simp [cbDemo]
  refine ⟨?_, ?_, ?_⟩
  · exact (claim_C1 cbDemo hlen
      [.loadMany [.plain 1], .loadMany [.plain 1, .plain 2]] []).1 (.plain 1)
  · refine (claim_C1 cbDemo hlen [] []).2.1 ⟨[(.plain 3, vA)], []⟩ [.plain 3] ?_
    intro k hk
    simp at hk
    subst hk
    simp [cacheGet, getMapKey]
  · exact (claim_C1 cbDemo hlen [] []).2.2.1 ⟨[], []⟩ [.plain 7, .plain 7]
      0 1 (by simp) (by simp) rfl

end GoDataloader
